import Mathlib

/-!
Verification of the gqlx schema-exploration core against its specification.

The Go sources under `cmd/` are shallowly embedded below:

* `ast.Type`, `ast.FieldDefinition`, `ast.ArgumentDefinition`, `ast.Definition`
  become `Ty`, `FieldDefinition`, `ArgumentDefinition`, `Definition`.
* `ast.Schema.Types` is a Go map `map[string]*ast.Definition`; it is embedded
  as an association list `Schema.types` recording both the key/value mapping
  and one concrete iteration order (Go map iteration order is not specified,
  so facts that depend on it are stated relative to this enumeration).
  A `deprecated` directive on a field or argument is embedded as a boolean
  flag (`isFieldDeprecated` / `isArgDeprecated` in Go test directive presence).
* Compiled glob and regexp matchers (`filepath.Match`, `regexp.MatchString`)
  are embedded as `Option (String → Bool)` — the command code only ever calls
  the compiled matcher on a name, so the matcher function itself is the
  faithful interface; `none` models an unset flag.
* Error returns (`fmt.Errorf`) are embedded as an error enumeration
  `CmdError`; the Go error strings (including "did you mean" suggestions)
  are rendering of these cases and carry no further control flow.
* `strings.Contains`, `strings.Join`, `strings.Split` and Go's string `<`
  are embedded as executable char-list functions `strContains`, `joinSep`,
  `countSepFrom` and `strLt` with identical semantics (UTF-8 byte order and
  code-point order agree, so Go's byte-wise `<` is char-wise `<`).
-/

namespace Gqlx

/-! ## Data model (gqlparser ast, as consumed by the commands) -/

/-- `ast.Type`: a named type or a list wrapper, each with a `NonNull` flag. -/
inductive Ty where
  | named (namedType : String) (nonNullFlag : Bool)
  | list (elem : Ty) (nonNullFlag : Bool)
deriving DecidableEq

/-- The outermost `NonNull` flag of an `ast.Type` value. -/
def Ty.nonNull : Ty → Bool
  | .named _ nn => nn
  | .list _ nn => nn

/-- `getBaseTypeName` from `cmd/utils.go`: follow `Elem` to the named type. -/
def getBaseTypeName : Ty → String
  | .named n _ => n
  | .list e _ => getBaseTypeName e

/-- `typeToString` from `cmd/utils.go`. -/
def typeToString : Ty → String
  | .named n nn => n ++ (if nn then "!" else "")
  | .list e nn => "[" ++ typeToString e ++ "]" ++ (if nn then "!" else "")

/-- `ast.ArgumentDefinition` (name, type, default value, description,
deprecation directive presence). -/
structure ArgumentDefinition where
  name : String
  type : Ty
  defaultValue : Option String
  description : String
  deprecated : Bool
deriving DecidableEq

/-- `ast.FieldDefinition`. -/
structure FieldDefinition where
  name : String
  arguments : List ArgumentDefinition
  type : Ty
  defaultValue : Option String
  description : String
  deprecated : Bool
deriving DecidableEq

/-- `ast.DefinitionKind`. -/
inductive DefinitionKind where
  | scalar
  | object
  | interface
  | union
  | enum
  | inputObject
deriving DecidableEq

/-- The string form of an `ast.DefinitionKind` (`string(graphqlType.Kind)`). -/
def kindName : DefinitionKind → String
  | .scalar => "SCALAR"
  | .object => "OBJECT"
  | .interface => "INTERFACE"
  | .union => "UNION"
  | .enum => "ENUM"
  | .inputObject => "INPUT_OBJECT"

/-- `ast.Definition`: one type definition in the schema. -/
structure Definition where
  name : String
  kind : DefinitionKind
  description : String
  interfaces : List String
  fields : List FieldDefinition
deriving DecidableEq

/-- `ast.Schema.Types` as an association list: the key/value mapping of the
Go map together with one concrete iteration order. -/
structure Schema where
  types : List (String × Definition)
deriving DecidableEq

/-- Go map lookup `schema.Types[name]` (`nil` becomes `none`). -/
def Schema.lookup (s : Schema) (n : String) : Option Definition :=
  (s.types.find? (fun p => p.1 == n)).map (fun p => p.2)

/-! ## String helpers (exact embeddings of the Go string operations used) -/

/-- Whether `s` starts with `sub` (helper for `strings.Contains`). -/
def startsWithList : List Char → List Char → Bool
  | _, [] => true
  | [], _ :: _ => false
  | a :: as, b :: bs => a == b && startsWithList as bs

/-- Whether `sub` occurs as a contiguous substring of `s`
(`strings.Contains` on char lists). -/
def containsList : List Char → List Char → Bool
  | [], sub => sub.isEmpty
  | a :: as, sub => startsWithList (a :: as) sub || containsList as sub

/-- `strings.Contains(s, sub)`. -/
def strContains (s sub : String) : Bool :=
  containsList s.data sub.data

/-- `strings.Join(parts, sep)`. -/
def joinSep (sep : String) : List String → String
  | [] => ""
  | [x] => x
  | x :: y :: rest => x ++ sep ++ joinSep sep (y :: rest)

/-- Count the non-overlapping occurrences of `sep` in the list, scanning left
to right; `skip` is the number of chars still covered by the last match.
This is the counting core of Go's `strings.Split`. -/
def countSepFrom (sep : List Char) : List Char → Nat → Nat
  | [], _ => 0
  | _ :: as, k + 1 => countSepFrom sep as k
  | a :: as, 0 =>
    if startsWithList (a :: as) sep then 1 + countSepFrom sep as (sep.length - 1)
    else countSepFrom sep as 0

/-- `len(strings.Split(p, " -> "))`, the hop count used by `--shortest`. -/
def hopCount (p : String) : Nat :=
  1 + countSepFrom " -> ".data p.data 0

/-- Go's byte-wise string `<` as char-list lexicographic comparison. -/
def listCharLt : List Char → List Char → Bool
  | [], [] => false
  | [], _ :: _ => true
  | _ :: _, [] => false
  | a :: as, b :: bs =>
    if a.toNat < b.toNat then true
    else if b.toNat < a.toNat then false
    else listCharLt as bs

/-- `s < t` on Go strings. -/
def strLt (s t : String) : Bool :=
  listCharLt s.data t.data

/-- `s ≤ t` on Go strings (the non-strict companion used for sortedness). -/
def strLe (s t : String) : Bool :=
  !(strLt t s)

/-! ## UsageIndex: `getTypesUsedBy` (cmd/types.go) -/

/-- `getTypesUsedBy` from `cmd/types.go`: the Go code fills a
`map[string]bool` that is only ever read through membership tests, so it is
embedded as the list of inserted keys (in insertion order, including the
source's redundant second pass over the fields). -/
def getTypesUsedBy (schema : Schema) (typeName : String) : List String :=
  match schema.lookup typeName with
  | none => []
  | some typeDef =>
    (typeDef.fields.flatMap fun field =>
      getBaseTypeName field.type ::
        field.arguments.map (fun arg => getBaseTypeName arg.type)) ++
    typeDef.fields.map (fun field => getBaseTypeName field.type)

/-! ## The `types` command (`runTypes`, refactored facade) -/

/-- The per-invocation `typesOptions` record. Glob and regexp flags are the
compiled matchers (`none` = flag unset). -/
structure TypesOptions where
  implements : String
  hasField : List String
  kind : List String
  usedBy : List String
  usedByAny : List String
  notUsedBy : List String
  notUsedByAll : List String
  name : Option (String → Bool)
  nameRegex : Option (String → Bool)
  hasDescription : Bool
  scalar : Bool
  typeFilter : Bool
  interfaceFlag : Bool
  union : Bool
  enum : Bool
  input : Bool

/-- The `validKinds` table from `cmd/types.go`. -/
def validKinds : String → Option DefinitionKind
  | "scalar" => some .scalar
  | "type" => some .object
  | "object" => some .object
  | "interface" => some .interface
  | "union" => some .union
  | "enum" => some .enum
  | "input" => some .inputObject
  | _ => none

/-- The switch over the individual kind flags inside `matchesKindFilter`. -/
def kindFlagMatches (k : DefinitionKind) (opts : TypesOptions) : Bool :=
  match k with
  | .scalar => opts.scalar
  | .object => opts.typeFilter
  | .interface => opts.interfaceFlag
  | .union => opts.union
  | .enum => opts.enum
  | .inputObject => opts.input

/-- `matchesKindFilter` from the refactored `types` command. -/
def matchesKindFilter (t : Definition) (opts : TypesOptions) : Bool :=
  let hasIndividualFilter := opts.scalar || opts.typeFilter ||
    opts.interfaceFlag || opts.union || opts.enum || opts.input
  if hasIndividualFilter && kindFlagMatches t.kind opts then true
  else if opts.kind.any (fun k =>
      match validKinds k.toLower with
      | some expectedKind => t.kind == expectedKind
      | none => false) then true
  else !hasIndividualFilter && opts.kind.isEmpty

/-- `matchesImplementsFilter`. -/
def matchesImplementsFilter (t : Definition) (implementsFilter : String) : Bool :=
  implementsFilter == "" || t.interfaces.contains implementsFilter

/-- `matchesHasFieldFilter`: every listed field name must be present. -/
def matchesHasFieldFilter (t : Definition) (hasFieldFilter : List String) : Bool :=
  hasFieldFilter.all (fun fieldName => t.fields.any (fun field => field.name == fieldName))

/-- `isInAllSets`. -/
def isInAllSets (name : String) (sets : List (List String)) : Bool :=
  sets.all (fun set => set.contains name)

/-- `isInAnySets`. -/
def isInAnySets (name : String) (sets : List (List String)) : Bool :=
  sets.any (fun set => set.contains name)

/-- The `TypeInfo` output record. -/
structure TypeInfo where
  name : String
  kind : String
  description : String
deriving DecidableEq

/-- The result-list construction of `runTypes` (the success path, after the
up-front flag/type validations): collect the used-by sets, then iterate
`schema.Types` in its enumeration order applying every filter dimension. -/
def runTypesList (schema : Schema) (opts : TypesOptions) : List TypeInfo :=
  let usedBySets := opts.usedBy.map (getTypesUsedBy schema)
  let usedByAnySets := opts.usedByAny.map (getTypesUsedBy schema)
  let notUsedBySets := opts.notUsedBy.map (getTypesUsedBy schema)
  let notUsedByAllSets := opts.notUsedByAll.map (getTypesUsedBy schema)
  schema.types.filterMap fun p =>
    let graphqlType := p.2
    if !matchesImplementsFilter graphqlType opts.implements then none
    else if !matchesHasFieldFilter graphqlType opts.hasField then none
    else if !matchesKindFilter graphqlType opts then none
    else if !usedBySets.isEmpty && !isInAllSets graphqlType.name usedBySets then none
    else if !usedByAnySets.isEmpty && !isInAnySets graphqlType.name usedByAnySets then none
    else if !notUsedBySets.isEmpty && isInAnySets graphqlType.name notUsedBySets then none
    else if !notUsedByAllSets.isEmpty && isInAllSets graphqlType.name notUsedByAllSets then none
    else if opts.hasDescription && graphqlType.description == "" then none
    else if (match opts.name with
             | some matchGlob => !matchGlob graphqlType.name
             | none => false) then none
    else if (match opts.nameRegex with
             | some matchRe => !matchRe graphqlType.name
             | none => false) then none
    else some ⟨graphqlType.name, kindName graphqlType.kind, graphqlType.description⟩

/-! ## The `fields` and `args` commands -/

/-- Error taxonomy of the command layer (the embedded form of the
`fmt.Errorf` returns). -/
inductive CmdError where
  | requiredNullableConflict
  | unknownType (name : String)
  | unknownField (typeName fieldName : String)
  | invalidFieldPath (path : String)
deriving DecidableEq

/-- `ArgumentInfo` (nested in `FieldInfo`). -/
structure ArgumentInfo where
  name : String
  type : String
deriving DecidableEq

/-- `FieldInfo` output record (`TypeName` is filled only in the all-types
branch, as in the source). -/
structure FieldInfo where
  name : String
  typeName : String
  arguments : List ArgumentInfo
  type : String
  defaultValue : String
  description : String
deriving DecidableEq

/-- `fieldToInfo` from `cmd/fields.go`. -/
def fieldToInfo (fieldDef : FieldDefinition) : FieldInfo :=
  { name := fieldDef.name
    typeName := ""
    arguments := fieldDef.arguments.map (fun arg => ⟨arg.name, typeToString arg.type⟩)
    type := typeToString fieldDef.type
    defaultValue := fieldDef.defaultValue.getD ""
    description := fieldDef.description }

/-- The `fields` command flags. -/
structure FieldsOptions where
  deprecated : Bool
  hasArg : List String
  returns : String
  required : Bool
  nullable : Bool
  name : Option (String → Bool)
  nameRegex : Option (String → Bool)
  hasDescription : Bool

/-- `matchesHasArgFilter`: every listed argument name must be present. -/
def matchesHasArgFilter (field : FieldDefinition) (hasArgFilter : List String) : Bool :=
  hasArgFilter.all (fun argName => field.arguments.any (fun arg => arg.name == argName))

/-- The chain of per-field `continue` checks in the `fields` command body. -/
def keepField (opts : FieldsOptions) (field : FieldDefinition) : Bool :=
  if opts.deprecated && !field.deprecated then false
  else if !matchesHasArgFilter field opts.hasArg then false
  else if opts.returns != "" && getBaseTypeName field.type != opts.returns then false
  else if opts.required && !field.type.nonNull then false
  else if opts.nullable && field.type.nonNull then false
  else if opts.hasDescription && field.description == "" then false
  else if (match opts.name with
           | some matchGlob => !matchGlob field.name
           | none => false) then false
  else if (match opts.nameRegex with
           | some matchRe => !matchRe field.name
           | none => false) then false
  else true

/-- The `fields` command (`fieldsCmd.RunE`): the required/nullable conflict
check comes first; then either all types' fields (in schema enumeration
order) or one named type's fields are filtered. -/
def runFields (schema : Schema) (arg : Option String) (opts : FieldsOptions) :
    Except CmdError (List FieldInfo) :=
  if opts.required && opts.nullable then .error .requiredNullableConflict
  else
    match arg with
    | none =>
      .ok (schema.types.flatMap fun p =>
        (p.2.fields.filter (keepField opts)).map
          (fun field => { fieldToInfo field with typeName := p.2.name }))
    | some searchString =>
      match schema.lookup searchString with
      | none => .error (.unknownType searchString)
      | some graphqlType =>
        .ok ((graphqlType.fields.filter (keepField opts)).map fieldToInfo)

/-- The `args` command flags. -/
structure ArgsOptions where
  deprecated : Bool
  typeFilter : String
  required : Bool
  nullable : Bool
  name : Option (String → Bool)
  nameRegex : Option (String → Bool)
  hasDescription : Bool

/-- `matchesArgFilters` from `cmd/args.go`. -/
def matchesArgFilters (arg : ArgumentDefinition) (opts : ArgsOptions) : Bool :=
  if opts.typeFilter != "" && getBaseTypeName arg.type != opts.typeFilter then false
  else if opts.required && !arg.type.nonNull then false
  else if opts.nullable && arg.type.nonNull then false
  else if opts.hasDescription && arg.description == "" then false
  else true

/-- The remaining per-argument `continue` checks in `runArgs`. -/
def keepArg (opts : ArgsOptions) (arg : ArgumentDefinition) : Bool :=
  if opts.deprecated && !arg.deprecated then false
  else if !matchesArgFilters arg opts then false
  else if (match opts.name with
           | some matchGlob => !matchGlob arg.name
           | none => false) then false
  else if (match opts.nameRegex with
           | some matchRe => !matchRe arg.name
           | none => false) then false
  else true

/-- `ArgInfo` output record. -/
structure ArgInfo where
  name : String
  typeName : String
  fieldName : String
  type : String
  defaultValue : String
  description : String
deriving DecidableEq

/-- `argToInfo` from `cmd/args.go`. -/
def argToInfo (arg : ArgumentDefinition) : ArgInfo :=
  { name := arg.name
    typeName := ""
    fieldName := ""
    type := typeToString arg.type
    defaultValue := arg.defaultValue.getD ""
    description := arg.description }

/-- `strings.Split(s, ".")` on char lists (structural, for the `Type.field`
argument of `args`). -/
def splitOnChar (c : Char) : List Char → List (List Char)
  | [] => [[]]
  | a :: as =>
    if a == c then [] :: splitOnChar c as
    else
      match splitOnChar c as with
      | [] => [[a]]
      | seg :: rest => (a :: seg) :: rest

/-- `runArgs` from `cmd/args.go`: conflict check first, then either all
arguments of all fields (schema enumeration order) or the arguments of one
`Type.field`. -/
def runArgs (schema : Schema) (arg : Option String) (opts : ArgsOptions) :
    Except CmdError (List ArgInfo) :=
  if opts.required && opts.nullable then .error .requiredNullableConflict
  else
    match arg with
    | none =>
      .ok (schema.types.flatMap fun p =>
        p.2.fields.flatMap fun field =>
          (field.arguments.filter (keepArg opts)).map
            (fun a => { argToInfo a with typeName := p.2.name, fieldName := field.name }))
    | some fieldPath =>
      match (splitOnChar '.' fieldPath.data).map (fun seg => String.mk seg) with
      | [typeName, fieldName] =>
        match schema.lookup typeName with
        | none => .error (.unknownType typeName)
        | some graphqlType =>
          match graphqlType.fields.find? (fun f => f.name == fieldName) with
          | none => .error (.unknownField typeName fieldName)
          | some field =>
            .ok ((field.arguments.filter (keepArg opts)).map argToInfo)
      | _ => .error (.invalidFieldPath fieldPath)

/-! ## PathFinder: `findPaths` (cmd/paths.go) -/

/-- `pathStep`: one hop of a discovered path. -/
structure PathStep where
  typeName : String
  fieldName : String
  hasArgs : Bool
deriving DecidableEq

/-- `formatPathStep`. -/
def formatPathStep (step : PathStep) : String :=
  if step.hasArgs then step.typeName ++ "." ++ step.fieldName ++ "(...)"
  else step.typeName ++ "." ++ step.fieldName

/-- `formatPath`. -/
def formatPath (steps : List PathStep) (targetType : String) : String :=
  match steps with
  | [] => targetType
  | _ => joinSep " -> " (steps.map formatPathStep) ++ " -> " ++ targetType

/-- `searchState`: path so far plus the per-branch visited set (the Go
`map[string]bool` is read only through membership, embedded as a key list). -/
structure SearchState where
  steps : List PathStep
  visited : List String
deriving DecidableEq

/-- Resolution of the "current type" of a state inside the BFS loop: the
base return type of the last step's field, found by name on the last step's
declaring type, falling back to `fromType` exactly as the Go code leaves
`currentTypeName` unassigned. -/
def currentTypeName (schema : Schema) (fromType : String) (steps : List PathStep) : String :=
  match steps.getLast? with
  | none => fromType
  | some lastStep =>
    match schema.lookup lastStep.typeName with
    | none => fromType
    | some parentType =>
      match parentType.fields.find? (fun f => f.name == lastStep.fieldName) with
      | none => fromType
      | some f => getBaseTypeName f.type

/-- The `newStep` built for one field of the current type. -/
def stepFor (ctn : String) (field : FieldDefinition) : PathStep :=
  { typeName := ctn, fieldName := field.name, hasArgs := !field.arguments.isEmpty }

/-- The completed paths emitted while expanding one state: one per field of
the current type whose base return type equals the target. -/
def emitsOf (schema : Schema) (fromType targetType : String) (s : SearchState) :
    List (List PathStep) :=
  match schema.lookup (currentTypeName schema fromType s.steps) with
  | none => []
  | some currentType =>
    currentType.fields.filterMap fun field =>
      if getBaseTypeName field.type == targetType then
        some (s.steps ++ [stepFor (currentTypeName schema fromType s.steps) field])
      else none

/-- The states enqueued while expanding one state: unvisited return type,
new length strictly below max depth, and an object/interface return type
with at least one field. -/
def childrenOf (schema : Schema) (fromType : String) (maxDepth : Int) (s : SearchState) :
    List SearchState :=
  match schema.lookup (currentTypeName schema fromType s.steps) with
  | none => []
  | some currentType =>
    currentType.fields.filterMap fun field =>
      let fieldReturnType := getBaseTypeName field.type
      if !s.visited.contains fieldReturnType && (s.steps.length : Int) + 1 < maxDepth then
        match schema.lookup fieldReturnType with
        | some returnTypeDef =>
          if (returnTypeDef.kind == .object || returnTypeDef.kind == .interface)
              && !returnTypeDef.fields.isEmpty then
            some { steps := s.steps ++ [stepFor (currentTypeName schema fromType s.steps) field]
                   visited := fieldReturnType :: s.visited }
          else none
        | none => none
      else none

/-- Largest field count of any definition in the schema: a bound on the
number of children one expansion can enqueue. -/
def maxFields (schema : Schema) : Nat :=
  (schema.types.map (fun p => p.2.fields.length)).foldr max 0

/-- Termination measure of one state: the remaining depth budget. -/
def stateMeasure (maxDepth : Int) (s : SearchState) : Nat :=
  (maxDepth - s.steps.length).toNat

/-- Termination measure of the whole queue. -/
def queueMeasure (F : Nat) (maxDepth : Int) (q : List SearchState) : Nat :=
  (q.map fun s => (F + 1) ^ stateMeasure maxDepth s).sum

theorem le_foldr_max {x : Nat} {l : List Nat} (h : x ∈ l) : x ≤ l.foldr max 0 := by
  induction l with
  | nil => cases h
  | cons a l ih =>
    rcases List.mem_cons.mp h with rfl | h
    · exact Nat.le_max_left _ _
    · exact Nat.le_trans (ih h) (Nat.le_max_right _ _)

theorem fields_length_le_maxFields {schema : Schema} {n : String} {d : Definition}
    (h : schema.lookup n = some d) : d.fields.length ≤ maxFields schema := by
  unfold Schema.lookup at h
  rcases hf : schema.types.find? (fun p => p.1 == n) with _ | p
  · rw [hf] at h; cases h
  · rw [hf] at h
    have hp : p ∈ schema.types := List.mem_of_find?_eq_some hf
    have : d.fields.length ∈ schema.types.map (fun p => p.2.fields.length) := by
      simp at h
      exact List.mem_map.mpr ⟨p, hp, by rw [h]⟩
    exact le_foldr_max this

theorem childrenOf_length_le (schema : Schema) (fromType : String) (maxDepth : Int)
    (s : SearchState) : (childrenOf schema fromType maxDepth s).length ≤ maxFields schema := by
  unfold childrenOf
  rcases hl : schema.lookup (currentTypeName schema fromType s.steps) with _ | currentType
  · simp
  · exact Nat.le_trans (List.length_filterMap_le _ _) (fields_length_le_maxFields hl)

theorem childrenOf_spec {schema : Schema} {fromType : String} {maxDepth : Int}
    {s c : SearchState} (h : c ∈ childrenOf schema fromType maxDepth s) :
    ∃ currentType field returnTypeDef,
      schema.lookup (currentTypeName schema fromType s.steps) = some currentType ∧
      field ∈ currentType.fields ∧
      c.steps = s.steps ++ [stepFor (currentTypeName schema fromType s.steps) field] ∧
      c.visited = getBaseTypeName field.type :: s.visited ∧
      s.visited.contains (getBaseTypeName field.type) = false ∧
      ((s.steps.length : Int) + 1 < maxDepth) ∧
      schema.lookup (getBaseTypeName field.type) = some returnTypeDef := by
  unfold childrenOf at h
  rcases hl : schema.lookup (currentTypeName schema fromType s.steps) with _ | currentType
  · rw [hl] at h; cases h
  · rw [hl] at h
    rcases List.mem_filterMap.mp h with ⟨field, hmem, heq⟩
    dsimp only at heq
    simp only [Option.ite_none_right_eq_some] at heq
    obtain ⟨hguard, heq⟩ := heq
    rcases hr : schema.lookup (getBaseTypeName field.type) with _ | returnTypeDef
    · rw [hr] at heq; simp at heq
    · rw [hr] at heq
      simp only [Option.ite_none_right_eq_some, Option.some_inj] at heq
      obtain ⟨-, heq⟩ := heq
      obtain ⟨hvis, hdepth⟩ := Bool.and_eq_true_iff.mp hguard
      refine ⟨currentType, field, returnTypeDef, rfl, hmem, ?_, ?_, ?_, ?_, hr⟩
      · rw [← heq]
      · rw [← heq]
      · simpa using hvis
      · exact of_decide_eq_true hdepth

theorem childrenOf_steps {schema : Schema} {fromType : String} {maxDepth : Int}
    {s c : SearchState} (h : c ∈ childrenOf schema fromType maxDepth s) :
    c.steps.length = s.steps.length + 1 ∧ (s.steps.length : Int) + 1 < maxDepth := by
  obtain ⟨_, _, _, _, _, hsteps, _, _, hdepth, _⟩ := childrenOf_spec h
  constructor
  · rw [hsteps]; simp
  · exact hdepth

theorem stateMeasure_child_lt {schema : Schema} {fromType : String} {maxDepth : Int}
    {s c : SearchState} (h : c ∈ childrenOf schema fromType maxDepth s) :
    stateMeasure maxDepth c < stateMeasure maxDepth s := by
  obtain ⟨hlen, hlt⟩ := childrenOf_steps h
  unfold stateMeasure
  rw [hlen]
  omega

theorem queueMeasure_tail_lt (F : Nat) (maxDepth : Int) (s : SearchState)
    (rest : List SearchState) :
    queueMeasure F maxDepth rest < queueMeasure F maxDepth (s :: rest) := by
  have hpos : 0 < (F + 1) ^ stateMeasure maxDepth s := Nat.pos_pow_of_pos _ (Nat.succ_pos F)
  simp only [queueMeasure, List.map_cons, List.sum_cons]
  omega

theorem queueMeasure_expand_lt (schema : Schema) (fromType : String) (maxDepth : Int)
    (s : SearchState) (rest : List SearchState) :
    queueMeasure (maxFields schema) maxDepth (rest ++ childrenOf schema fromType maxDepth s) <
      queueMeasure (maxFields schema) maxDepth (s :: rest) := by
  set F := maxFields schema with hF
  have happ : queueMeasure F maxDepth (rest ++ childrenOf schema fromType maxDepth s) =
      queueMeasure F maxDepth rest + queueMeasure F maxDepth (childrenOf schema fromType maxDepth s) := by
    simp [queueMeasure]
  have hcons : queueMeasure F maxDepth (s :: rest) =
      (F + 1) ^ stateMeasure maxDepth s + queueMeasure F maxDepth rest := by
    simp [queueMeasure]
  rw [happ, hcons]
  have hkey : queueMeasure F maxDepth (childrenOf schema fromType maxDepth s) <
      (F + 1) ^ stateMeasure maxDepth s := by
    by_cases hch : childrenOf schema fromType maxDepth s = []
    · have hz : queueMeasure F maxDepth (childrenOf schema fromType maxDepth s) = 0 := by
        rw [hch]; rfl
      rw [hz]
      exact Nat.pos_pow_of_pos _ (Nat.succ_pos F)
    · obtain ⟨c0, hc0⟩ := List.exists_mem_of_ne_nil _ hch
      have hms : 1 ≤ stateMeasure maxDepth s := by
        have := stateMeasure_child_lt hc0
        omega
      have hbound : ∀ x ∈ (childrenOf schema fromType maxDepth s).map
          (fun c => (F + 1) ^ stateMeasure maxDepth c), x ≤ (F + 1) ^ (stateMeasure maxDepth s - 1) := by
        intro x hx
        rcases List.mem_map.mp hx with ⟨c, hc, rfl⟩
        have := stateMeasure_child_lt hc
        exact Nat.pow_le_pow_right (Nat.succ_le_succ (Nat.zero_le F)) (by omega)
      have hsum := List.sum_le_card_nsmul _ _ hbound
      have hlen : ((childrenOf schema fromType maxDepth s).map
          (fun c => (F + 1) ^ stateMeasure maxDepth c)).length ≤ F := by
        rw [List.length_map]
        exact childrenOf_length_le schema fromType maxDepth s
      have h1 : queueMeasure F maxDepth (childrenOf schema fromType maxDepth s) ≤
          F * (F + 1) ^ (stateMeasure maxDepth s - 1) := by
        unfold queueMeasure
        calc ((childrenOf schema fromType maxDepth s).map
              (fun c => (F + 1) ^ stateMeasure maxDepth c)).sum
            ≤ ((childrenOf schema fromType maxDepth s).map
              (fun c => (F + 1) ^ stateMeasure maxDepth c)).length •
                ((F + 1) ^ (stateMeasure maxDepth s - 1)) := hsum
          _ ≤ F * (F + 1) ^ (stateMeasure maxDepth s - 1) := by
              rw [smul_eq_mul]
              exact Nat.mul_le_mul_right _ hlen
      have h2 : F * (F + 1) ^ (stateMeasure maxDepth s - 1) <
          (F + 1) * (F + 1) ^ (stateMeasure maxDepth s - 1) := by
        have hpow : 0 < (F + 1) ^ (stateMeasure maxDepth s - 1) :=
          Nat.pos_pow_of_pos _ (Nat.succ_pos F)
        exact Nat.mul_lt_mul_of_lt_of_le (Nat.lt_succ_self F) (Nat.le_refl _) hpow
      have h3 : (F + 1) * (F + 1) ^ (stateMeasure maxDepth s - 1) =
          (F + 1) ^ stateMeasure maxDepth s := by
        rw [← pow_succ']
        congr 1
        omega
      omega
  omega

/-- The BFS queue loop of `findPaths`: pop a state, drop it when its step
count exceeds the depth bound, otherwise append its emitted paths and
enqueue its children at the back of the queue. -/
def processQueue (schema : Schema) (fromType targetType : String) (maxDepth : Int) :
    List SearchState → List (List PathStep)
  | [] => []
  | s :: rest =>
    if (s.steps.length : Int) > maxDepth then
      processQueue schema fromType targetType maxDepth rest
    else
      emitsOf schema fromType targetType s ++
        processQueue schema fromType targetType maxDepth
          (rest ++ childrenOf schema fromType maxDepth s)
termination_by q => queueMeasure (maxFields schema) maxDepth q
decreasing_by
  · exact queueMeasure_tail_lt ..
  · exact queueMeasure_expand_lt ..

/-- `findPaths` before rendering: the discovered step lists, in emission
order, seeded with the start type (empty when the start type is unknown). -/
def collectPaths (schema : Schema) (fromType targetType : String) (maxDepth : Int) :
    List (List PathStep) :=
  match schema.lookup fromType with
  | none => []
  | some _ =>
    processQueue schema fromType targetType maxDepth
      [{ steps := [], visited := [fromType] }]

/-- `findPaths`: render every discovered path and sort by the rendered
string (Go sorts with `results[i].Path < results[j].Path`; for a total
order any sorted rearrangement is the same list, so the structural
insertion sort is an exact embedding of the output). -/
def findPaths (schema : Schema) (fromType targetType : String) (maxDepth : Int) :
    List String :=
  List.insertionSort (fun a b => strLe a b = true)
    ((collectPaths schema fromType targetType maxDepth).map
      (fun steps => formatPath steps targetType))

/-- The `--through` post-filter of `runPaths`: keep rendered paths that
contain `throughType ++ "."` as a substring. -/
def throughFilter (throughType : String) (paths : List String) : List String :=
  paths.filter (fun p => strContains p (throughType ++ "."))

/-- The `--shortest` post-filter body of `runPaths` (only reached on a
non-empty list): compute the minimal segment count, keep the ties. -/
def shortestReduce (paths : List String) : List String :=
  match paths with
  | [] => []
  | p0 :: _ =>
    let minDepth := paths.foldl
      (fun minAcc p => if hopCount p < minAcc then hopCount p else minAcc) (hopCount p0)
    paths.filter (fun p => hopCount p == minDepth)

/-- The post-filter pipeline of `runPaths`: `--through` first, then
`--shortest` (the latter guarded by non-emptiness as in the source). -/
def runPathsPost (throughType : String) (shortestOnly : Bool) (paths : List String) :
    List String :=
  let afterThrough := if throughType != "" then throughFilter throughType paths else paths
  if shortestOnly && !afterThrough.isEmpty then shortestReduce afterThrough
  else afterThrough

/-! ## BFS queue invariants -/

theorem emitsOf_spec {schema : Schema} {fromType targetType : String} {s : SearchState}
    {p : List PathStep} (h : p ∈ emitsOf schema fromType targetType s) :
    ∃ currentType field,
      schema.lookup (currentTypeName schema fromType s.steps) = some currentType ∧
      field ∈ currentType.fields ∧
      getBaseTypeName field.type = targetType ∧
      p = s.steps ++ [stepFor (currentTypeName schema fromType s.steps) field] := by
  unfold emitsOf at h
  rcases hl : schema.lookup (currentTypeName schema fromType s.steps) with _ | currentType
  · rw [hl] at h; cases h
  · rw [hl] at h
    rcases List.mem_filterMap.mp h with ⟨field, hmem, heq⟩
    simp only [Option.ite_none_right_eq_some, Option.some_inj] at heq
    obtain ⟨htgt, heq⟩ := heq
    exact ⟨currentType, field, rfl, hmem, by simpa using htgt, heq.symm⟩

/-- Every path produced by the queue loop satisfies `P` as soon as `P` holds
for the emissions of `Inv`-states and `Inv` is preserved along enqueued
children; the invariant holds of the whole queue. -/
theorem processQueue_sound (schema : Schema) (fromType targetType : String) (maxDepth : Int)
    (Inv : SearchState → Prop) (P : List PathStep → Prop)
    (hchild : ∀ s c, Inv s → c ∈ childrenOf schema fromType maxDepth s → Inv c)
    (hemit : ∀ s p, Inv s → p ∈ emitsOf schema fromType targetType s → P p) :
    ∀ q, (∀ s ∈ q, Inv s) →
      ∀ p ∈ processQueue schema fromType targetType maxDepth q, P p := by
  intro q
  induction q using processQueue.induct schema fromType targetType maxDepth with
  | case1 =>
    intro _ p hp
    simp only [processQueue] at hp
    cases hp
  | case2 s rest hgt ih =>
    intro hq p hp
    simp only [processQueue] at hp
    rw [if_pos hgt] at hp
    exact ih (fun t ht => hq t (List.mem_cons_of_mem _ ht)) p hp
  | case3 s rest hle ih =>
    intro hq p hp
    simp only [processQueue] at hp
    rw [if_neg hle] at hp
    rcases List.mem_append.mp hp with hp | hp
    · exact hemit s p (hq s (List.mem_cons_self _ _)) hp
    · refine ih ?_ p hp
      intro t ht
      rcases List.mem_append.mp ht with ht | ht
      · exact hq t (List.mem_cons_of_mem _ ht)
      · exact hchild s t (hq s (List.mem_cons_self _ _)) ht

/-- Specialization to the singleton queue `collectPaths` starts from. -/
theorem collectPaths_sound (schema : Schema) (fromType targetType : String) (maxDepth : Int)
    (Inv : SearchState → Prop) (P : List PathStep → Prop)
    (hchild : ∀ s c, Inv s → c ∈ childrenOf schema fromType maxDepth s → Inv c)
    (hemit : ∀ s p, Inv s → p ∈ emitsOf schema fromType targetType s → P p)
    (hinit : Inv { steps := [], visited := [fromType] }) :
    ∀ p ∈ collectPaths schema fromType targetType maxDepth, P p := by
  intro p hp
  unfold collectPaths at hp
  rcases hl : schema.lookup fromType with _ | startType
  · rw [hl] at hp; cases hp
  · rw [hl] at hp
    refine processQueue_sound schema fromType targetType maxDepth Inv P hchild hemit
      _ ?_ p hp
    intro t ht
    rcases List.mem_cons.mp ht with rfl | ht
    · exact hinit
    · cases ht

/-- Parser-guaranteed well-formedness of a loaded schema: within one type
definition the field names are unique (`gqlparser.LoadSchema` rejects a
schema where a field is defined twice on the same type). -/
def SchemaWF (schema : Schema) : Prop :=
  ∀ p ∈ schema.types, ((p.2.fields.map FieldDefinition.name).Nodup)

instance (schema : Schema) : Decidable (SchemaWF schema) :=
  inferInstanceAs (Decidable (∀ p ∈ schema.types, ((p.2.fields.map FieldDefinition.name).Nodup)))

theorem lookup_wf {schema : Schema} {n : String} {d : Definition}
    (hwf : SchemaWF schema) (h : schema.lookup n = some d) :
    (d.fields.map FieldDefinition.name).Nodup := by
  unfold Schema.lookup at h
  rcases hf : schema.types.find? (fun p => p.1 == n) with _ | p
  · rw [hf] at h; cases h
  · rw [hf] at h
    simp at h
    exact h ▸ hwf p (List.mem_of_find?_eq_some hf)

theorem find?_name_eq {fields : List FieldDefinition} {field : FieldDefinition}
    (hnd : (fields.map FieldDefinition.name).Nodup) (hmem : field ∈ fields) :
    fields.find? (fun f => f.name == field.name) = some field := by
  induction fields with
  | nil => cases hmem
  | cons a rest ih =>
    rw [List.map_cons, List.nodup_cons] at hnd
    rcases List.mem_cons.mp hmem with rfl | hmem
    · simp [List.find?]
    · have hne : (a.name == field.name) = false := by
        rw [beq_eq_false_iff_ne]
        intro he
        exact hnd.1 (he ▸ List.mem_map_of_mem _ hmem)
      rw [List.find?_cons, hne]
      exact ih hnd.2 hmem

/-! ## Substring lemmas for the through filter -/

theorem containsList_nil_sub (s : List Char) : containsList s [] = true := by
  cases s <;> simp [containsList, startsWithList]

theorem startsWithList_extend {s sub : List Char} (t : List Char)
    (h : startsWithList s sub = true) : startsWithList (s ++ t) sub = true := by
  induction sub generalizing s with
  | nil => cases s <;> simp [startsWithList]
  | cons b bs ih =>
    cases s with
    | nil => simp [startsWithList] at h
    | cons a as =>
      simp only [List.cons_append, startsWithList, Bool.and_eq_true] at h ⊢
      exact ⟨h.1, ih h.2⟩

theorem startsWithList_self (sub t : List Char) :
    startsWithList (sub ++ t) sub = true := by
  induction sub with
  | nil => cases t <;> simp [startsWithList]
  | cons a as ih => simp [startsWithList, ih]

theorem containsList_of_startsWith {s sub : List Char}
    (h : startsWithList s sub = true) : containsList s sub = true := by
  cases s with
  | nil =>
    cases sub with
    | nil => rfl
    | cons b bs => simp [startsWithList] at h
  | cons a as => simp [containsList, h]

theorem containsList_append_left {s sub : List Char} (t : List Char)
    (h : containsList s sub = true) : containsList (s ++ t) sub = true := by
  induction s with
  | nil =>
    have hs : sub = [] := by
      cases sub with
      | nil => rfl
      | cons b bs => simp [containsList] at h
    subst hs
    exact containsList_nil_sub t
  | cons a as ih =>
    simp only [containsList, Bool.or_eq_true] at h
    rw [List.cons_append]
    simp only [containsList, Bool.or_eq_true]
    rcases h with h | h
    · exact Or.inl (by simpa [List.cons_append] using startsWithList_extend t h)
    · exact Or.inr (ih h)

theorem containsList_append_right {s sub : List Char} (t : List Char)
    (h : containsList s sub = true) : containsList (t ++ s) sub = true := by
  induction t with
  | nil => simpa using h
  | cons a ts ih =>
    rw [List.cons_append]
    simp only [containsList, Bool.or_eq_true]
    exact Or.inr ih

theorem containsList_joinSep {sep : String} {parts : List String} {x : String}
    {sub : List Char} (hx : x ∈ parts) (h : containsList x.data sub = true) :
    containsList (joinSep sep parts).data sub = true := by
  induction parts with
  | nil => cases hx
  | cons y rest ih =>
    cases rest with
    | nil =>
      rcases List.mem_cons.mp hx with rfl | hx
      · simpa [joinSep] using h
      · cases hx
    | cons z rest2 =>
      rcases List.mem_cons.mp hx with rfl | hx
      · show containsList (x ++ sep ++ joinSep sep (z :: rest2)).data sub = true
        rw [String.data_append, String.data_append]
        exact containsList_append_left _ (containsList_append_left _ h)
      · show containsList (y ++ sep ++ joinSep sep (z :: rest2)).data sub = true
        rw [String.data_append, String.data_append]
        exact containsList_append_right _ (ih hx)

/-- The `through+"."` marker is a prefix of the rendered form of a step that
is declared on the through type, hence contained in it. -/
theorem containsList_formatPathStep (st : PathStep) :
    containsList (formatPathStep st).data (st.typeName ++ ".").data = true := by
  unfold formatPathStep
  by_cases h : st.hasArgs <;> simp only [h, Bool.false_eq_true, if_true, if_false]
  · apply containsList_of_startsWith
    have : st.typeName ++ "." ++ st.fieldName ++ "(...)" =
        (st.typeName ++ ".") ++ (st.fieldName ++ "(...)") := by
      simp [String.ext_iff, String.data_append, List.append_assoc]
    rw [this, String.data_append]
    exact startsWithList_self _ _
  · apply containsList_of_startsWith
    rw [show st.typeName ++ "." ++ st.fieldName = (st.typeName ++ ".") ++ st.fieldName from by
      simp [String.ext_iff, String.data_append, List.append_assoc]]
    rw [String.data_append]
    exact startsWithList_self _ _

/-! ## Fold lemmas for the shortest reduction -/

theorem foldl_min_le_init (l : List String) (a : Nat) :
    l.foldl (fun minAcc p => if hopCount p < minAcc then hopCount p else minAcc) a ≤ a := by
  induction l generalizing a with
  | nil => simp
  | cons x xs ih =>
    simp only [List.foldl_cons]
    by_cases h : hopCount x < a
    · rw [if_pos h]; exact Nat.le_trans (ih _) (Nat.le_of_lt h)
    · rw [if_neg h]; exact ih a

theorem foldl_min_le_mem {l : List String} {x : String} (hx : x ∈ l) (a : Nat) :
    l.foldl (fun minAcc p => if hopCount p < minAcc then hopCount p else minAcc) a ≤
      hopCount x := by
  induction l generalizing a with
  | nil => cases hx
  | cons y ys ih =>
    simp only [List.foldl_cons]
    rcases List.mem_cons.mp hx with rfl | hx
    · by_cases h : hopCount x < a
      · rw [if_pos h]; exact foldl_min_le_init ys _
      · rw [if_neg h]; exact Nat.le_trans (foldl_min_le_init ys a) (Nat.le_of_not_lt h)
    · by_cases h : hopCount y < a
      · rw [if_pos h]; exact ih hx _
      · rw [if_neg h]; exact ih hx _

theorem foldl_min_attained (l : List String) (a : Nat) :
    l.foldl (fun minAcc p => if hopCount p < minAcc then hopCount p else minAcc) a = a ∨
    ∃ x ∈ l, l.foldl (fun minAcc p => if hopCount p < minAcc then hopCount p else minAcc) a =
      hopCount x := by
  induction l generalizing a with
  | nil => exact Or.inl rfl
  | cons y ys ih =>
    simp only [List.foldl_cons]
    by_cases h : hopCount y < a
    · rw [if_pos h]
      rcases ih (hopCount y) with he | ⟨x, hx, he⟩
      · exact Or.inr ⟨y, List.mem_cons_self _ _, he⟩
      · exact Or.inr ⟨x, List.mem_cons_of_mem _ hx, he⟩
    · rw [if_neg h]
      rcases ih a with he | ⟨x, hx, he⟩
      · exact Or.inl he
      · exact Or.inr ⟨x, List.mem_cons_of_mem _ hx, he⟩

/-! ## Order lemmas for the rendered-path sort -/

theorem listCharLt_asymm {a b : List Char} (h : listCharLt a b = true) :
    listCharLt b a = false := by
  induction a generalizing b with
  | nil =>
    cases b with
    | nil => simp [listCharLt] at h
    | cons y bs => simp [listCharLt]
  | cons x as ih =>
    cases b with
    | nil => simp [listCharLt] at h
    | cons y bs =>
      by_cases h1 : x.toNat < y.toNat
      · simp [listCharLt, h1, Nat.lt_asymm h1]
      · by_cases h2 : y.toNat < x.toNat
        · simp [listCharLt, h1, h2] at h
        · simp only [listCharLt, h1, h2, if_false] at h ⊢
          exact ih h

theorem listCharLt_cotrans {a c : List Char} (b : List Char)
    (h : listCharLt a c = true) :
    listCharLt a b = true ∨ listCharLt b c = true := by
  induction a generalizing b c with
  | nil =>
    cases c with
    | nil => simp [listCharLt] at h
    | cons z cs =>
      cases b with
      | nil => exact Or.inr h
      | cons y bs => exact Or.inl (by simp [listCharLt])
  | cons x as ih =>
    cases c with
    | nil => simp [listCharLt] at h
    | cons z cs =>
      cases b with
      | nil => exact Or.inr (by simp [listCharLt])
      | cons y bs =>
        by_cases hxz : x.toNat < z.toNat
        · by_cases hxy : x.toNat < y.toNat
          · exact Or.inl (by simp [listCharLt, hxy])
          · have hyz : y.toNat < z.toNat := by omega
            exact Or.inr (by simp [listCharLt, hyz])
        · by_cases hzx : z.toNat < x.toNat
          · simp [listCharLt, hxz, hzx] at h
          · simp only [listCharLt, hxz, hzx, if_false] at h
            by_cases hxy : x.toNat < y.toNat
            · exact Or.inl (by simp [listCharLt, hxy])
            · by_cases hyx : y.toNat < x.toNat
              · have hyz : y.toNat < z.toNat := by omega
                exact Or.inr (by simp [listCharLt, hyz])
              · rcases ih bs h with hl | hr
                · exact Or.inl (by simp [listCharLt, hxy, hyx, hl])
                · have hyz : ¬ y.toNat < z.toNat := by omega
                  have hzy : ¬ z.toNat < y.toNat := by omega
                  exact Or.inr (by simp [listCharLt, hyz, hzy, hr])

instance : IsTotal String (fun a b => strLe a b = true) := by
  constructor
  intro a b
  by_cases h : listCharLt b.data a.data = true
  · exact Or.inr (by simp [strLe, strLt, listCharLt_asymm h])
  · exact Or.inl (by simp [strLe, strLt]; simpa using h)

instance : IsTrans String (fun a b => strLe a b = true) := by
  constructor
  intro a b c hab hbc
  simp only [strLe, strLt, Bool.not_eq_true'] at hab hbc ⊢
  by_contra hca
  have hca' : listCharLt c.data a.data = true := by
    cases hlt : listCharLt c.data a.data
    · exact absurd hlt hca
    · rfl
  rcases listCharLt_cotrans b.data hca' with h | h
  · rw [hbc] at h; cases h
  · rw [hab] at h; cases h

/-- Resolving the current type of a state extended by one step recovers the
base return type of the field the step was built from (field names being
unique on the declaring type). -/
theorem currentTypeName_concat {schema : Schema} {fromType : String} {steps : List PathStep}
    {currentType : Definition} {field : FieldDefinition}
    (hwf : SchemaWF schema)
    (hl : schema.lookup (currentTypeName schema fromType steps) = some currentType)
    (hmem : field ∈ currentType.fields) :
    currentTypeName schema fromType
        (steps ++ [stepFor (currentTypeName schema fromType steps) field]) =
      getBaseTypeName field.type := by
  unfold currentTypeName
  rw [List.getLast?_concat]
  show (match schema.lookup (stepFor (currentTypeName schema fromType steps) field).typeName with
    | none => fromType
    | some parentType =>
      match parentType.fields.find?
          (fun f => f.name == (stepFor (currentTypeName schema fromType steps) field).fieldName) with
      | none => fromType
      | some f => getBaseTypeName f.type) = getBaseTypeName field.type
  have ht : (stepFor (currentTypeName schema fromType steps) field).typeName =
      currentTypeName schema fromType steps := rfl
  have hfn : (stepFor (currentTypeName schema fromType steps) field).fieldName =
      field.name := rfl
  rw [ht, hfn, hl]
  show (match currentType.fields.find? (fun f => f.name == field.name) with
    | none => fromType
    | some f => getBaseTypeName f.type) = getBaseTypeName field.type
  rw [find?_name_eq (lookup_wf hwf hl) hmem]

/-! ## Concrete schemas and option records used by the scenario theorems -/

/-- A field with no arguments and no metadata. -/
def mkField (n : String) (t : Ty) : FieldDefinition :=
  { name := n, arguments := [], type := t, defaultValue := none,
    description := "", deprecated := false }

/-- An argument with no metadata. -/
def mkArg (n : String) (t : Ty) : ArgumentDefinition :=
  { name := n, type := t, defaultValue := none, description := "", deprecated := false }

/-- An object type definition with no metadata. -/
def mkObject (n : String) (fs : List FieldDefinition) : Definition :=
  { name := n, kind := .object, description := "", interfaces := [], fields := fs }

/-- A scalar type definition. -/
def mkScalar (n : String) : Definition :=
  { name := n, kind := .scalar, description := "", interfaces := [], fields := [] }

/-- Scenario 1: `type Query { user(id: ID!): User, viewer: Viewer }
type Viewer { me: User } type User { id: ID! }` (plus built-in scalars). -/
def scenario1Schema : Schema := ⟨[
  ("Query", mkObject "Query" [
    { name := "user", arguments := [mkArg "id" (.named "ID" true)],
      type := .named "User" false, defaultValue := none, description := "",
      deprecated := false },
    mkField "viewer" (.named "Viewer" false)]),
  ("Viewer", mkObject "Viewer" [mkField "me" (.named "User" false)]),
  ("User", mkObject "User" [mkField "id" (.named "ID" true)]),
  ("ID", mkScalar "ID"),
  ("String", mkScalar "String")]⟩

/-- A self-referential schema: `Query.self` returns `Query` itself. -/
def cyclicSchema : Schema := ⟨[
  ("Query", mkObject "Query" [
    mkField "self" (.named "Query" false),
    mkField "t" (.named "Target" false)]),
  ("Target", mkObject "Target" [mkField "id" (.named "ID" true)]),
  ("ID", mkScalar "ID")]⟩

/-- Scenario 3: `Target` is only reachable in five hops from `Query`. -/
def chainSchema : Schema := ⟨[
  ("Query", mkObject "Query" [mkField "a" (.named "TypeA" false)]),
  ("TypeA", mkObject "TypeA" [mkField "b" (.named "TypeB" false)]),
  ("TypeB", mkObject "TypeB" [mkField "c" (.named "TypeC" false)]),
  ("TypeC", mkObject "TypeC" [mkField "d" (.named "TypeD" false)]),
  ("TypeD", mkObject "TypeD" [mkField "target" (.named "Target" false)]),
  ("Target", mkObject "Target" [mkField "id" (.named "ID" true)]),
  ("ID", mkScalar "ID")]⟩

/-- A schema where the only path to `Target` passes through `AdminUser`,
whose name textually ends in the existing type name `User`. -/
def throughSchema : Schema := ⟨[
  ("Query", mkObject "Query" [mkField "a" (.named "AdminUser" false)]),
  ("AdminUser", mkObject "AdminUser" [mkField "x" (.named "Target" false)]),
  ("Target", mkObject "Target" [mkField "id" (.named "ID" true)]),
  ("User", mkObject "User" [mkField "id" (.named "ID" true)]),
  ("ID", mkScalar "ID")]⟩

/-- Scenario 2: `type User { id: ID!, name: String!, posts: [Post!]! }
type Post { id: ID! } type Comment { id: ID! }`. -/
def usedBySchema : Schema := ⟨[
  ("User", mkObject "User" [
    mkField "id" (.named "ID" true),
    mkField "name" (.named "String" true),
    mkField "posts" (.list (.named "Post" true) true)]),
  ("Post", mkObject "Post" [mkField "id" (.named "ID" true)]),
  ("Comment", mkObject "Comment" [mkField "id" (.named "ID" true)]),
  ("ID", mkScalar "ID"),
  ("String", mkScalar "String")]⟩

/-- Two enumerations of the same two-type schema map. -/
def orderSchemaAB : Schema := ⟨[
  ("Alpha", mkObject "Alpha" [mkField "id" (.named "ID" true)]),
  ("Beta", mkObject "Beta" [mkField "id" (.named "ID" true)])]⟩

/-- The other iteration order of the same map as `orderSchemaAB`. -/
def orderSchemaBA : Schema := ⟨[
  ("Beta", mkObject "Beta" [mkField "id" (.named "ID" true)]),
  ("Alpha", mkObject "Alpha" [mkField "id" (.named "ID" true)])]⟩

/-- `types` with no filter flags set. -/
def noTypesFilters : TypesOptions :=
  { implements := "", hasField := [], kind := [], usedBy := [], usedByAny := [],
    notUsedBy := [], notUsedByAll := [], name := none, nameRegex := none,
    hasDescription := false, scalar := false, typeFilter := false,
    interfaceFlag := false, union := false, enum := false, input := false }

/-- `fields --required --nullable`. -/
def rnFieldsOpts : FieldsOptions :=
  { deprecated := false, hasArg := [], returns := "", required := true,
    nullable := true, name := none, nameRegex := none, hasDescription := false }

/-- `args --required --nullable`. -/
def rnArgsOpts : ArgsOptions :=
  { deprecated := false, typeFilter := "", required := true, nullable := true,
    name := none, nameRegex := none, hasDescription := false }

/-- `fields --required` alone. -/
def fieldsOnlyRequired : FieldsOptions :=
  { deprecated := false, hasArg := [], returns := "", required := true,
    nullable := false, name := none, nameRegex := none, hasDescription := false }

/-- `fields --nullable` alone. -/
def fieldsOnlyNullable : FieldsOptions :=
  { deprecated := false, hasArg := [], returns := "", required := false,
    nullable := true, name := none, nameRegex := none, hasDescription := false }

/-- `args --required` alone. -/
def argsOnlyRequired : ArgsOptions :=
  { deprecated := false, typeFilter := "", required := true, nullable := false,
    name := none, nameRegex := none, hasDescription := false }

/-- `args --nullable` alone. -/
def argsOnlyNullable : ArgsOptions :=
  { deprecated := false, typeFilter := "", required := false, nullable := true,
    name := none, nameRegex := none, hasDescription := false }

/-- A field of type `[ID!]` (nullable list of non-null elements). -/
def sampleListField : FieldDefinition := mkField "ids" (.list (.named "ID" true) false)

/-- An argument of type `[ID!]`. -/
def sampleListArg : ArgumentDefinition := mkArg "ids" (.list (.named "ID" true) false)

/-! ## Claim theorems -/

/-- C1: the `types` facade does not sort its result list — the output order
is exactly the `schema.Types` iteration order. The same schema map
enumerated in two different orders (as Go's randomized map iteration may
do on any two runs of the command) yields the same records in different
orders, and the emitted order is not sorted; this refutes the claimed
explicitly-sorted, byte-identical output across invocations. -/
theorem types_output_order_depends_on_iteration :
    List.Perm orderSchemaAB.types orderSchemaBA.types ∧
    orderSchemaAB.lookup "Alpha" = orderSchemaBA.lookup "Alpha" ∧
    orderSchemaAB.lookup "Beta" = orderSchemaBA.lookup "Beta" ∧
    runTypesList orderSchemaAB noTypesFilters ≠ runTypesList orderSchemaBA noTypesFilters ∧
    (runTypesList orderSchemaBA noTypesFilters).map TypeInfo.name = ["Beta", "Alpha"] :=
  ⟨by decide, by decide, by decide, by decide, by decide⟩

theorem filterMap_name_sublist {α β γ : Type} (f : α → Option β) (g : α → γ) (h : β → γ)
    (hfg : ∀ a b, f a = some b → h b = g a) (l : List α) :
    List.Sublist ((l.filterMap f).map h) (l.map g) := by
  induction l with
  | nil => simp
  | cons a l ih =>
    rcases hfa : f a with _ | b
    · rw [List.filterMap_cons_none hfa, List.map_cons]
      exact ih.cons _
    · rw [List.filterMap_cons_some hfa, List.map_cons, List.map_cons, hfg a b hfa]
      exact ih.cons₂ _

/-- C1 (amended): the `types` facade does not sort; the result order is
exactly the SchemaModel's iteration order — the surviving records' names
form an order-preserving subsequence of the enumeration's type names — so
repeated invocations agree only relative to a fixed enumeration order of
the model (which a Go map does not guarantee across runs). -/
theorem runTypesList_order_is_iteration_order (schema : Schema) (opts : TypesOptions) :
    List.Sublist ((runTypesList schema opts).map TypeInfo.name)
      (schema.types.map (fun p => p.2.name)) := by
  simp only [runTypesList]
  refine filterMap_name_sublist _ _ _ ?_ schema.types
  intro p ti h
  simp only [Option.ite_none_left_eq_some, Option.some_inj] at h
  rcases h with ⟨-, -, -, -, -, -, -, -, -, -, rfl⟩
  rfl

/-- C5: `getTypesUsedBy` returns exactly the set of base type names of the
given type's field return types and those fields' argument types, and the
empty set for an unknown type name; on scenario 2 the usage set of `User`
contains `Post`, `ID` and `String` and not `Comment`. -/
theorem getTypesUsedBy_exact :
    (∀ (schema : Schema) (typeName : String),
      (schema.lookup typeName = none → getTypesUsedBy schema typeName = []) ∧
      (∀ n, n ∈ getTypesUsedBy schema typeName ↔
        ∃ d, schema.lookup typeName = some d ∧
          ∃ f ∈ d.fields, getBaseTypeName f.type = n ∨
            ∃ a ∈ f.arguments, getBaseTypeName a.type = n)) ∧
    ("Post" ∈ getTypesUsedBy usedBySchema "User" ∧
     "ID" ∈ getTypesUsedBy usedBySchema "User" ∧
     "String" ∈ getTypesUsedBy usedBySchema "User" ∧
     "Comment" ∉ getTypesUsedBy usedBySchema "User") := by
  constructor
  · intro schema typeName
    constructor
    · intro h
      unfold getTypesUsedBy
      rw [h]
    · intro n
      unfold getTypesUsedBy
      rcases hl : schema.lookup typeName with _ | d
      · simp
      · simp only [List.mem_append, List.mem_flatMap, List.mem_map, List.mem_cons,
          Option.some_inj]
        constructor
        · rintro (⟨f, hf, h | ⟨a, ha, rfl⟩⟩ | ⟨f, hf, h⟩)
          · exact ⟨d, rfl, f, hf, Or.inl h.symm⟩
          · exact ⟨d, rfl, f, hf, Or.inr ⟨a, ha, rfl⟩⟩
          · exact ⟨d, rfl, f, hf, Or.inl h⟩
        · rintro ⟨d', rfl, f, hf, h | ⟨a, ha, ha'⟩⟩
          · exact Or.inl ⟨f, hf, Or.inl h.symm⟩
          · exact Or.inl ⟨f, hf, Or.inr ⟨a, ha, ha'⟩⟩
  · exact ⟨by decide, by decide, by decide, by decide⟩

/-- C5 witness: the theorem applied to a type name absent from the schema
and to the concrete scenario. -/
theorem getTypesUsedBy_exact_witness :
    getTypesUsedBy usedBySchema "Nope" = [] ∧
    ("Post" ∈ getTypesUsedBy usedBySchema "User" ↔
      ∃ d, usedBySchema.lookup "User" = some d ∧
        ∃ f ∈ d.fields, getBaseTypeName f.type = "Post" ∨
          ∃ a ∈ f.arguments, getBaseTypeName a.type = "Post") :=
  ⟨(getTypesUsedBy_exact.1 usedBySchema "Nope").1 (by decide),
   (getTypesUsedBy_exact.1 usedBySchema "User").2 "Post"⟩

/-- C9: activating `--required` and `--nullable` together makes both the
`fields` and the `args` command fail with the mutual-exclusion error before
producing any records, for every schema, positional argument and other flag
setting. -/
theorem required_nullable_conflict :
    ∀ (schema : Schema) (fieldsArg : Option String) (fopts : FieldsOptions)
      (argsArg : Option String) (aopts : ArgsOptions),
      fopts.required = true → fopts.nullable = true →
      aopts.required = true → aopts.nullable = true →
      runFields schema fieldsArg fopts = .error .requiredNullableConflict ∧
      runArgs schema argsArg aopts = .error .requiredNullableConflict := by
  intro schema fa fo aa ao h1 h2 h3 h4
  constructor
  · simp [runFields, h1, h2]
  · simp [runArgs, h3, h4]

/-- C9 witness: the conflict on a concrete schema and concrete options. -/
theorem required_nullable_conflict_witness :
    runFields usedBySchema none rnFieldsOpts = .error .requiredNullableConflict ∧
    runArgs usedBySchema none rnArgsOpts = .error .requiredNullableConflict :=
  required_nullable_conflict usedBySchema none rnFieldsOpts none rnArgsOpts
    rfl rfl rfl rfl

/-- C10: the required/nullable dimensions inspect only the outermost
wrapper's non-null flag: a field or argument typed as a nullable list (with
arbitrary inner markers, e.g. `[ID!]`) is kept by the nullable filter and
rejected by the required filter, in both the `fields` and the `args`
predicate chains. -/
theorem required_nullable_outermost_only :
    ∀ (field : FieldDefinition) (arg : ArgumentDefinition) (innerF innerA : Ty),
      field.type = Ty.list innerF false →
      arg.type = Ty.list innerA false →
      keepField fieldsOnlyRequired field = false ∧
      keepField fieldsOnlyNullable field = true ∧
      matchesArgFilters arg argsOnlyRequired = false ∧
      matchesArgFilters arg argsOnlyNullable = true := by
  intro field arg innerF innerA hF hA
  refine ⟨?_, ?_, ?_, ?_⟩ <;>
    simp [keepField, matchesArgFilters, matchesHasArgFilter, fieldsOnlyRequired,
      fieldsOnlyNullable, argsOnlyRequired, argsOnlyNullable, hF, hA, Ty.nonNull]

/-- C10 witness: the dimension outcomes on a concrete `[ID!]` field and
argument. -/
theorem required_nullable_outermost_only_witness :
    keepField fieldsOnlyRequired sampleListField = false ∧
    keepField fieldsOnlyNullable sampleListField = true ∧
    matchesArgFilters sampleListArg argsOnlyRequired = false ∧
    matchesArgFilters sampleListArg argsOnlyNullable = true :=
  required_nullable_outermost_only sampleListField sampleListArg
    (.named "ID" true) (.named "ID" true) rfl rfl

/-- C3 (amended): for max depth ≥ 1 every discovered path has step count at
most the max depth, and a negative max depth yields no paths at all; at max
depth exactly 0 paths of step count 1 can still be emitted (see the
counterexample), and indeed all paths then have step count at most 1. -/
theorem collectPaths_depth_bound :
    (∀ (schema : Schema) (fromType targetType : String) (maxDepth : Int),
      1 ≤ maxDepth →
      ∀ p ∈ collectPaths schema fromType targetType maxDepth,
        (p.length : Int) ≤ maxDepth) ∧
    (∀ (schema : Schema) (fromType targetType : String) (maxDepth : Int),
      maxDepth < 0 → collectPaths schema fromType targetType maxDepth = []) ∧
    (∀ (schema : Schema) (fromType targetType : String) (maxDepth : Int),
      maxDepth ≤ 0 →
      ∀ p ∈ collectPaths schema fromType targetType maxDepth, p.length ≤ 1) := by
  refine ⟨?_, ?_, ?_⟩
  · intro schema ft tt d hd
    refine collectPaths_sound schema ft tt d
      (fun s => (s.steps.length : Int) + 1 ≤ d)
      (fun p => (p.length : Int) ≤ d) ?_ ?_ ?_
    · intro s c _ hc
      obtain ⟨hlen, hlt⟩ := childrenOf_steps hc
      omega
    · intro s p hs hp
      obtain ⟨ct, f, hl, hmem, htgt, rfl⟩ := emitsOf_spec hp
      simp only [List.length_append, List.length_cons, List.length_nil]
      push_cast
      omega
    · simpa using hd
  · intro schema ft tt d hd
    unfold collectPaths
    rcases hl : schema.lookup ft with _ | st
    · rfl
    · simp only [processQueue]
      rw [if_pos (by simp; omega)]
  · intro schema ft tt d hd
    refine collectPaths_sound schema ft tt d
      (fun s => s.steps.length = 0) (fun p => p.length ≤ 1) ?_ ?_ ?_
    · intro s c hs hc
      obtain ⟨hlen, hlt⟩ := childrenOf_steps hc
      omega
    · intro s p hs hp
      obtain ⟨ct, f, hl, hmem, htgt, rfl⟩ := emitsOf_spec hp
      simp [hs]
    · rfl

/-- C3 witness: the bound applied at max depth 5 to the one discovered path
of the self-referential schema. -/
theorem collectPaths_depth_bound_witness :
    ((([{ typeName := "Query", fieldName := "t", hasArgs := false }] : List PathStep)).length : Int) ≤ 5 := by
  have hcol : collectPaths cyclicSchema "Query" "Target" 5 =
      [[{ typeName := "Query", fieldName := "t", hasArgs := false }]] := by
    simp [collectPaths, processQueue, emitsOf, childrenOf, currentTypeName, stepFor,
      getBaseTypeName, Schema.lookup, cyclicSchema, mkObject, mkField, mkScalar]
  refine collectPaths_depth_bound.1 cyclicSchema "Query" "Target" 5 (by decide) _ ?_
  rw [hcol]
  exact List.mem_singleton_self _

/-- C3 counterexample: at max depth 0 the dequeue guard (`0 > 0` is false)
still lets the seed state emit, so the one-step path `Query.t -> Target` is
returned even though its step count 1 exceeds the configured max depth 0. -/
theorem depth_zero_emits_counterexample :
    collectPaths cyclicSchema "Query" "Target" 0 =
      [[{ typeName := "Query", fieldName := "t", hasArgs := false }]] ∧
    ¬ ((([{ typeName := "Query", fieldName := "t", hasArgs := false }] : List PathStep).length : Int) ≤ 0) := by
  constructor
  · simp [collectPaths, processQueue, emitsOf, childrenOf, currentTypeName, stepFor,
      getBaseTypeName, Schema.lookup, cyclicSchema, mkObject, mkField, mkScalar]
  · decide

/-- C4: on the self-referential schema (`Query.self : Query`) the search
terminates — `findPaths` is a total function, defined by well-founded
recursion on the queue measure, and evaluates to exactly
`Query.t -> Target` — and on every parser-validated schema (field names
unique within each type, which `gqlparser.LoadSchema` guarantees) no
discovered path repeats a type among its steps' declaring types; the
terminal target name is appended after the steps and may repeat one. -/
theorem no_repeated_intermediate_type :
    findPaths cyclicSchema "Query" "Target" 5 = ["Query.t -> Target"] ∧
    (∀ (schema : Schema) (fromType targetType : String) (maxDepth : Int),
      SchemaWF schema →
      ∀ p ∈ collectPaths schema fromType targetType maxDepth,
        (p.map PathStep.typeName).Nodup) := by
  constructor
  · have hcol : collectPaths cyclicSchema "Query" "Target" 5 =
        [[{ typeName := "Query", fieldName := "t", hasArgs := false }]] := by
      simp [collectPaths, processQueue, emitsOf, childrenOf, currentTypeName, stepFor,
        getBaseTypeName, Schema.lookup, cyclicSchema, mkObject, mkField, mkScalar]
    rw [findPaths, hcol]
    decide
  · intro schema ft tt d hwf
    refine collectPaths_sound schema ft tt d
      (fun s => (s.steps.map PathStep.typeName).Nodup ∧
        currentTypeName schema ft s.steps ∉ s.steps.map PathStep.typeName ∧
        (∀ st ∈ s.steps, st.typeName ∈ s.visited) ∧
        currentTypeName schema ft s.steps ∈ s.visited)
      (fun p => (p.map PathStep.typeName).Nodup) ?_ ?_ ?_
    · rintro s c ⟨h1, h2, h3, h4⟩ hc
      obtain ⟨ct, field, rtd, hl, hmem, hsteps, hvisited, hcont, hdepth, hlr⟩ :=
        childrenOf_spec hc
      have hctn : currentTypeName schema ft c.steps = getBaseTypeName field.type := by
        rw [hsteps]
        exact currentTypeName_concat hwf hl hmem
      have hnotin : getBaseTypeName field.type ∉ s.visited := by
        simpa using hcont
      have hmapsingle : List.map PathStep.typeName
          [stepFor (currentTypeName schema ft s.steps) field] =
          [currentTypeName schema ft s.steps] := rfl
      have hnotsteps : getBaseTypeName field.type ∉ s.steps.map PathStep.typeName := by
        intro hmem3
        rcases List.mem_map.mp hmem3 with ⟨st, hst, hty⟩
        exact hnotin (hty ▸ h3 st hst)
      refine ⟨?_, ?_, ?_, ?_⟩
      · rw [hsteps, List.map_append, hmapsingle]
        refine List.Nodup.append h1 (List.nodup_singleton _) ?_
        intro a ha hb
        rw [List.mem_singleton] at hb
        exact h2 (hb ▸ ha)
      · rw [hctn, hsteps, List.map_append, hmapsingle]
        rw [List.mem_append, List.mem_singleton]
        rintro (hin | hin)
        · exact hnotsteps hin
        · exact hnotin (hin ▸ h4)
      · intro st hst
        rw [hsteps] at hst
        rw [hvisited]
        rcases List.mem_append.mp hst with hst | hst
        · exact List.mem_cons_of_mem _ (h3 st hst)
        · rw [List.mem_singleton] at hst
          subst hst
          exact List.mem_cons_of_mem _ h4
      · rw [hctn, hvisited]
        exact List.mem_cons_self _ _
    · rintro s p ⟨h1, h2, -, -⟩ hp
      obtain ⟨ct, f, hl, hmem, htgt, rfl⟩ := emitsOf_spec hp
      rw [List.map_append]
      refine List.Nodup.append h1 (List.nodup_singleton _) ?_
      intro a ha hb
      rw [show List.map PathStep.typeName [stepFor (currentTypeName schema ft s.steps) f] =
        [currentTypeName schema ft s.steps] from rfl, List.mem_singleton] at hb
      exact h2 (hb ▸ ha)
    · refine ⟨by simp, by simp, by simp, ?_⟩
      simp [currentTypeName]

/-- C4 witness: the no-repeat property applied to the concrete discovered
path of the self-referential schema. -/
theorem no_repeated_intermediate_type_witness :
    (List.map PathStep.typeName
      [({ typeName := "Query", fieldName := "t", hasArgs := false } : PathStep)]).Nodup := by
  have hcol : collectPaths cyclicSchema "Query" "Target" 5 =
      [[{ typeName := "Query", fieldName := "t", hasArgs := false }]] := by
    simp [collectPaths, processQueue, emitsOf, childrenOf, currentTypeName, stepFor,
      getBaseTypeName, Schema.lookup, cyclicSchema, mkObject, mkField, mkScalar]
  refine no_repeated_intermediate_type.2 cyclicSchema "Query" "Target" 5 (by decide) _ ?_
  rw [hcol]
  exact List.mem_singleton_self _

/-- Exact description of `shortestReduce`: a threshold that lower-bounds
every hop count, is attained when the input is non-empty, and the output is
the input filtered to that threshold. -/
theorem shortestReduce_spec (l : List String) :
    ∃ m : Nat,
      (∀ p ∈ l, m ≤ hopCount p) ∧
      (l ≠ [] → ∃ p ∈ l, hopCount p = m) ∧
      shortestReduce l = l.filter (fun p => hopCount p == m) := by
  rcases l with _ | ⟨p0, rest⟩
  · exact ⟨0, by simp, by simp, rfl⟩
  · refine ⟨(p0 :: rest).foldl
      (fun minAcc p => if hopCount p < minAcc then hopCount p else minAcc) (hopCount p0),
      ?_, ?_, rfl⟩
    · intro p hp
      exact foldl_min_le_mem hp (hopCount p0)
    · intro _
      rcases foldl_min_attained (p0 :: rest) (hopCount p0) with he | ⟨x, hx, he⟩
      · exact ⟨p0, List.mem_cons_self _ _, he.symm⟩
      · exact ⟨x, hx, he.symm⟩

/-- With `--shortest` active, `runPaths` post-filters to the shortest
reduction of the through-filtered list (or to that list itself when it is
empty) — the composition order of the two post-filters. -/
theorem runPathsPost_true_eq (throughType : String) (paths : List String) :
    runPathsPost throughType true paths =
      if (runPathsPost throughType false paths).isEmpty = true then
        runPathsPost throughType false paths
      else shortestReduce (runPathsPost throughType false paths) := by
  simp only [runPathsPost]
  by_cases hth : (throughType != "") = true
  · rw [if_pos hth]
    simp only [Bool.true_and, Bool.false_and, Bool.false_eq_true, if_false]
    by_cases hE : (throughFilter throughType paths).isEmpty = true
    · simp [hE]
    · rw [Bool.not_eq_true] at hE
      simp [hE]
  · rw [if_neg hth]
    simp only [Bool.true_and, Bool.false_and, Bool.false_eq_true, if_false]
    by_cases hE : paths.isEmpty = true
    · simp [hE]
    · rw [Bool.not_eq_true] at hE
      simp [hE]

/-- C6: when `--shortest` is active it runs after the through filter; there
is a threshold `m` lower-bounding the hop counts (arrow-joined segment
counts) of the through-filtered path set, attained on it when non-empty,
and the final result is exactly the through-filtered set restricted to hop
count `m`, ties retained; the result is empty iff the through-filtered set
is empty. -/
theorem shortest_after_through_exact (throughType : String) (paths : List String) :
    ∃ m : Nat,
      (∀ p ∈ runPathsPost throughType false paths, m ≤ hopCount p) ∧
      (runPathsPost throughType false paths ≠ [] →
        ∃ p ∈ runPathsPost throughType false paths, hopCount p = m) ∧
      runPathsPost throughType true paths =
        (runPathsPost throughType false paths).filter (fun p => hopCount p == m) ∧
      (runPathsPost throughType true paths = [] ↔
        runPathsPost throughType false paths = []) := by
  obtain ⟨m, hlb, hatt, hred⟩ := shortestReduce_spec (runPathsPost throughType false paths)
  have hthird : runPathsPost throughType true paths =
      (runPathsPost throughType false paths).filter (fun p => hopCount p == m) := by
    rw [runPathsPost_true_eq]
    by_cases hqe : runPathsPost throughType false paths = []
    · rw [hqe]
      rfl
    · have hE : (runPathsPost throughType false paths).isEmpty = false := by
        rcases hl : runPathsPost throughType false paths with _ | ⟨x, xs⟩
        · exact absurd hl hqe
        · rfl
      rw [hE]
      simp only [Bool.false_eq_true, if_false]
      exact hred
  refine ⟨m, hlb, hatt, hthird, ?_, ?_⟩
  · intro hr
    by_contra hq
    obtain ⟨x, hx, hxm⟩ := hatt hq
    have hxmem : x ∈ runPathsPost throughType true paths := by
      rw [hthird]
      exact List.mem_filter.mpr ⟨hx, by simp [hxm]⟩
    rw [hr] at hxmem
    cases hxmem
  · intro hq
    rw [hthird, hq]
    rfl

/-- C6 witness: the characterization applied to a concrete through type and
path list. -/
theorem shortest_after_through_exact_witness :
    ∃ m : Nat,
      (∀ p ∈ runPathsPost "Media" false
          ["Query.a -> Media.b -> User", "Query.c -> User"], m ≤ hopCount p) ∧
      (runPathsPost "Media" false ["Query.a -> Media.b -> User", "Query.c -> User"] ≠ [] →
        ∃ p ∈ runPathsPost "Media" false
          ["Query.a -> Media.b -> User", "Query.c -> User"], hopCount p = m) ∧
      runPathsPost "Media" true ["Query.a -> Media.b -> User", "Query.c -> User"] =
        (runPathsPost "Media" false
          ["Query.a -> Media.b -> User", "Query.c -> User"]).filter
          (fun p => hopCount p == m) ∧
      (runPathsPost "Media" true ["Query.a -> Media.b -> User", "Query.c -> User"] = [] ↔
        runPathsPost "Media" false ["Query.a -> Media.b -> User", "Query.c -> User"] = []) :=
  shortest_after_through_exact "Media" ["Query.a -> Media.b -> User", "Query.c -> User"]

/-- C2 (amended): the through filter keeps every rendered path containing a
step declared on the through type — the marker `through ++ "."` occurs in
its rendered string — but keeping is decided by that substring test alone,
so the converse fails when another type name textually ends in the through
type's name (see the counterexample). -/
theorem throughFilter_keeps_step_on_type :
    ∀ (throughType targetType : String) (paths : List String) (steps : List PathStep),
      formatPath steps targetType ∈ paths →
      (∃ st ∈ steps, st.typeName = throughType) →
      formatPath steps targetType ∈ throughFilter throughType paths := by
  rintro through target paths steps hmem ⟨st, hst, hty⟩
  subst hty
  refine List.mem_filter.mpr ⟨hmem, ?_⟩
  unfold strContains
  rcases steps with _ | ⟨s0, rest⟩
  · cases hst
  · show containsList
      (joinSep " -> " ((s0 :: rest).map formatPathStep) ++ " -> " ++ target).data
      (st.typeName ++ ".").data = true
    rw [String.data_append, String.data_append]
    apply containsList_append_left
    apply containsList_append_left
    exact containsList_joinSep (List.mem_map_of_mem formatPathStep hst)
      (containsList_formatPathStep st)

/-- C2 witness: the keep direction on a concrete path through `Media`. -/
theorem throughFilter_keeps_step_on_type_witness :
    formatPath [{ typeName := "Media", fieldName := "author", hasArgs := false }] "User" ∈
      throughFilter "Media"
        [formatPath [{ typeName := "Media", fieldName := "author", hasArgs := false }] "User"] :=
  throughFilter_keeps_step_on_type "Media" "User"
    [formatPath [{ typeName := "Media", fieldName := "author", hasArgs := false }] "User"]
    [{ typeName := "Media", fieldName := "author", hasArgs := false }]
    (List.mem_singleton_self _)
    ⟨{ typeName := "Media", fieldName := "author", hasArgs := false },
      List.mem_singleton_self _, rfl⟩

/-- C2 counterexample: on `throughSchema` the only discovered path is
`Query.a -> AdminUser.x -> Target`; the through type `User` exists in the
schema and no step of that path is declared on `User`, yet the through
filter keeps the path, because `AdminUser.` textually contains `User.`. -/
theorem throughFilter_substring_counterexample :
    runPathsPost "User" false (findPaths throughSchema "Query" "Target" 5) =
      ["Query.a -> AdminUser.x -> Target"] ∧
    (throughSchema.lookup "User").isSome = true ∧
    (∀ p ∈ collectPaths throughSchema "Query" "Target" 5,
      ∀ st ∈ p, st.typeName ≠ "User") := by
  have hcol : collectPaths throughSchema "Query" "Target" 5 =
      [[{ typeName := "Query", fieldName := "a", hasArgs := false },
        { typeName := "AdminUser", fieldName := "x", hasArgs := false }]] := by
    simp [collectPaths, processQueue, emitsOf, childrenOf, currentTypeName, stepFor,
      getBaseTypeName, Schema.lookup, throughSchema, mkObject, mkField, mkScalar]
  have hfp : findPaths throughSchema "Query" "Target" 5 =
      ["Query.a -> AdminUser.x -> Target"] := by
    rw [findPaths, hcol]
    decide
  refine ⟨?_, by decide, ?_⟩
  · rw [hfp]
    decide
  · rw [hcol]
    decide

/-- C7: the rendered result list of `findPaths` is always sorted by the Go
string order of the rendered paths, and on scenario 1 the two discovered
paths come out exactly as `Query.user(...) -> User` then
`Query.viewer -> Viewer.me -> User`. -/
theorem findPaths_sorted_lexicographically :
    (∀ (schema : Schema) (fromType targetType : String) (maxDepth : Int),
      List.Sorted (fun a b => strLe a b = true)
        (findPaths schema fromType targetType maxDepth)) ∧
    findPaths scenario1Schema "Query" "User" 5 =
      ["Query.user(...) -> User", "Query.viewer -> Viewer.me -> User"] := by
  constructor
  · intro schema ft tt d
    exact List.sorted_insertionSort _ _
  · have hcol : collectPaths scenario1Schema "Query" "User" 5 =
        [[{ typeName := "Query", fieldName := "user", hasArgs := true }],
         [{ typeName := "Query", fieldName := "viewer", hasArgs := false },
          { typeName := "Viewer", fieldName := "me", hasArgs := false }]] := by
      simp [collectPaths, processQueue, emitsOf, childrenOf, currentTypeName, stepFor,
        getBaseTypeName, Schema.lookup, scenario1Schema, mkObject, mkField, mkScalar, mkArg]
    rw [findPaths, hcol]
    decide

/-- C8: on the five-hop chain schema, max depth 2 returns no paths and max
depth 5 returns the one five-step path — a path completing exactly at the
depth bound is returned, so the bound is inclusive of the step count. -/
theorem depth_bound_inclusive :
    findPaths chainSchema "Query" "Target" 2 = [] ∧
    findPaths chainSchema "Query" "Target" 5 =
      ["Query.a -> TypeA.b -> TypeB.c -> TypeC.d -> TypeD.target -> Target"] ∧
    (collectPaths chainSchema "Query" "Target" 5).map List.length = [5] := by
  have h2 : collectPaths chainSchema "Query" "Target" 2 = [] := by
    simp [collectPaths, processQueue, emitsOf, childrenOf, currentTypeName, stepFor,
      getBaseTypeName, Schema.lookup, chainSchema, mkObject, mkField, mkScalar]
  have h5 : collectPaths chainSchema "Query" "Target" 5 =
      [[{ typeName := "Query", fieldName := "a", hasArgs := false },
        { typeName := "TypeA", fieldName := "b", hasArgs := false },
        { typeName := "TypeB", fieldName := "c", hasArgs := false },
        { typeName := "TypeC", fieldName := "d", hasArgs := false },
        { typeName := "TypeD", fieldName := "target", hasArgs := false }]] := by
    simp [collectPaths, processQueue, emitsOf, childrenOf, currentTypeName, stepFor,
      getBaseTypeName, Schema.lookup, chainSchema, mkObject, mkField, mkScalar]
  refine ⟨?_, ?_, ?_⟩
  · rw [findPaths, h2]
    rfl
  · rw [findPaths, h5]
    decide
  · rw [h5]
    decide

end Gqlx
